import Mathlib

/-!
Verification of the region-tree cache, rate limiter, tree algorithms and
result enrichment of the `yandex-wordstat-mcp` server
(`packages/yandex-wordstat-mcp/src/index.mjs`).

The JavaScript source is embedded shallowly:
* a tree node `{value, label, children?}` becomes `RegionNode`, with
  `children : Option (List RegionNode)` (`none` = JS `null`/absent,
  `some []` = an empty array — the two are distinct, as in JS);
* numeric ids are embedded as `Int` (the source normalises string ids with
  `Number(...)` at the boundary; the embedding carries the normalised id);
* a JS `Set` is embedded as a duplicate-free insertion-ordered list;
* a JS `Map` is embedded as an association list where `set` replaces any
  existing binding;
* `Date.now()` and `setTimeout` are embedded as explicit clock readings
  constrained by a validity predicate (monotone clock, `setTimeout(w)`
  resumes no earlier than `w` ms later);
* `Array.prototype.sort` with comparator `(a, b) => k(b) - k(a)` is a
  stable sort (ECMAScript 2019) descending by `k`; a stable sort for a
  total preorder has a unique result, embedded as `List.insertionSort`
  with the relation `fun a b => k b ≤ k a`.
-/

namespace YandexWordstat

/-- One node of the regions tree returned by the `/v1/getRegionsTree`
endpoint: `{value, label, children?}`.  `children = none` models JS
`null`/`undefined`; `children = some l` models an array. -/
inductive RegionNode : Type where
  | mk (value : Int) (label : String) (children : Option (List RegionNode))
deriving Repr

/-- The `value` field of a node. -/
def RegionNode.value : RegionNode → Int
  | .mk v _ _ => v

/-- The `label` field of a node. -/
def RegionNode.label : RegionNode → String
  | .mk _ l _ => l

/-- The `children` field of a node. -/
def RegionNode.children : RegionNode → Option (List RegionNode)
  | .mk _ _ c => c

mutual

/-- `trimTreeToDepth(nodes, maxDepth, currentDepth = 1)` from the source:
`if (!nodes || currentDepth > maxDepth) return null;` then maps every node
to a copy whose `children` is the recursive trim when
`currentDepth < maxDepth` and `null` otherwise.  The default argument
`currentDepth = 1` is made explicit at every call site. -/
def trimTreeToDepth (nodes : Option (List RegionNode)) (maxDepth currentDepth : Int) :
    Option (List RegionNode) :=
  match nodes with
  | none => none
  | some ns =>
    if maxDepth < currentDepth then none
    else some (trimForest ns maxDepth currentDepth)
termination_by ((maxDepth - currentDepth).toNat, 1, 0)

/-- The `nodes.map(...)` body of `trimTreeToDepth`, as explicit list
recursion. -/
def trimForest (ns : List RegionNode) (maxDepth currentDepth : Int) : List RegionNode :=
  match ns with
  | [] => []
  | n :: rest =>
    RegionNode.mk n.value n.label
      (if currentDepth < maxDepth then
        trimTreeToDepth n.children maxDepth (currentDepth + 1)
      else none) :: trimForest rest maxDepth currentDepth
termination_by ((maxDepth - currentDepth).toNat, 0, ns.length)

end

mutual

/-- `findRegionInTree(nodes, regionId)` from the source: `null` check, then
a depth-first scan of the forest. -/
def findRegionInTree (nodes : Option (List RegionNode)) (regionId : Int) :
    Option RegionNode :=
  match nodes with
  | none => none
  | some ns => findInForest ns regionId

/-- The `for (const node of nodes)` loop of `findRegionInTree`: check the
node's own `value`, then recurse into its children, then move to the next
sibling. -/
def findInForest (ns : List RegionNode) (regionId : Int) : Option RegionNode :=
  match ns with
  | [] => none
  | RegionNode.mk v l c :: rest =>
    if v = regionId then some (RegionNode.mk v l c)
    else
      match findRegionInTree c regionId with
      | some found => some found
      | none => findInForest rest regionId

end

/-- Membership-conditional insertion into a JS `Set` modelled as an
insertion-ordered duplicate-free list: `Set.add` is a no-op on a present
element and appends an absent one. -/
def setAdd (s : List Int) (x : Int) : List Int :=
  if x ∈ s then s else s ++ [x]

mutual

/-- The inner `collectDescendants(node)` closure of
`getDescendantRegionIds`: if the node has children, add each child's
numeric `value` to the accumulated set and recurse into the child. -/
def collectDescendants (s : List Int) (n : RegionNode) : List Int :=
  match n with
  | RegionNode.mk _ _ none => s
  | RegionNode.mk _ _ (some cs) => collectList s cs
termination_by (sizeOf n, 1)

/-- The `for (const child of node.children)` loop of
`collectDescendants`. -/
def collectList (s : List Int) (cs : List RegionNode) : List Int :=
  match cs with
  | [] => s
  | c :: rest => collectList (collectDescendants (setAdd s c.value) c) rest
termination_by (sizeOf cs, 0)

end

/-- `getDescendantRegionIds(regionId)` from the source, with the captured
mutable `regionsTreeCache` passed explicitly: seed the set with
`regionId`; if the cache is `null` or the id is not found in the tree,
return the seed alone; otherwise collect the found node's descendants. -/
def getDescendantRegionIds (regionsTreeCache : Option (List RegionNode))
    (regionId : Int) : List Int :=
  match regionsTreeCache with
  | none => [regionId]
  | some fullTree =>
    match findInForest fullTree regionId with
    | none => [regionId]
    | some regionNode => collectDescendants [regionId] regionNode

mutual

/-- Specification-side reading of a subtree's id set: the node's own id
followed by the ids of all nodes transitively reachable via `children`. -/
def subtreeIds (n : RegionNode) : List Int :=
  n.value :: strictDescIds n
termination_by (sizeOf n, 1)

/-- Ids of all strict descendants of a node (everything below it). -/
def strictDescIds (n : RegionNode) : List Int :=
  match n with
  | RegionNode.mk _ _ none => []
  | RegionNode.mk _ _ (some cs) => forestIds cs
termination_by (sizeOf n, 0)

/-- Ids of every node of a forest, in depth-first order. -/
def forestIds (ns : List RegionNode) : List Int :=
  match ns with
  | [] => []
  | n :: rest => subtreeIds n ++ forestIds rest
termination_by (sizeOf ns, 0)

end

/-! ### Flat index (`regionsFlatCache`) -/

/-- One entry of the flat lookup map: `{label, parentId}`. -/
structure FlatEntry where
  label : String
  parentId : Option Int
deriving Repr, DecidableEq

/-- `Map.prototype.set`: replace any existing binding of the key.  Only
`get` is ever observed on the flat cache, so the entry's position is
irrelevant; the embedding keeps the freshest binding first for
`List.lookup`. -/
def mapSet (m : List (Int × FlatEntry)) (k : Int) (v : FlatEntry) :
    List (Int × FlatEntry) :=
  (k, v) :: m.filter (fun p => decide (p.1 ≠ k))

/-- The `for (const node of nodes)` loop of `flattenRegionsTree`, with
the mutable `regionsFlatCache` threaded through as `m`: for each node
record `(Number(node.value), {label, parentId})` and recurse into truthy
`children` with the node's value as the new parent id. -/
def flattenList (m : List (Int × FlatEntry)) (ns : List RegionNode)
    (parentId : Option Int) : List (Int × FlatEntry) :=
  match ns with
  | [] => m
  | RegionNode.mk v l c :: rest =>
    let m1 := mapSet m v ⟨l, parentId⟩
    let m2 :=
      match c with
      | none => m1
      | some cs => flattenList m1 cs (some v)
    flattenList m2 rest parentId
termination_by sizeOf ns

/-- `flattenRegionsTree(nodes, parentId)` from the source: `if (!nodes)
return;`, then the node loop. -/
def flattenRegionsTree (m : List (Int × FlatEntry)) (nodes : Option (List RegionNode))
    (parentId : Option Int) : List (Int × FlatEntry) :=
  match nodes with
  | none => m
  | some ns => flattenList m ns parentId

/-! ### Tree cache (`regionsTreeCache` / `regionsFlatCache`) -/

/-- The two module-level mutable cache variables of the server. -/
structure CacheState where
  regionsTreeCache : Option (List RegionNode)
  regionsFlatCache : Option (List (Int × FlatEntry))
deriving Repr

/-- Result of one `getRegionsTree()` invocation: the value returned (or
the exception propagated), the cache state after the call, and whether a
network request to the tree endpoint was issued. -/
structure TreeCallResult where
  result : Except String (List RegionNode)
  state : CacheState
  networkCall : Bool

/-- `getRegionsTree()` from the source, executed to completion with no
interleaving, with the outcome of the (rate-limited) network request
passed in as `fetchResult`.  `if (!regionsTreeCache)` — a populated cache
is returned without any request; otherwise `regionsTreeCache = await
wordstatRequest(...)` issues the request, and on a rejected promise the
exception propagates before any assignment, leaving both cache variables
untouched.  On success both the tree and the flat index are stored. -/
def getRegionsTree (st : CacheState) (fetchResult : Except String (List RegionNode)) :
    TreeCallResult :=
  match st.regionsTreeCache with
  | some t => ⟨Except.ok t, st, false⟩
  | none =>
    match fetchResult with
    | Except.error e => ⟨Except.error e, st, true⟩
    | Except.ok t =>
      ⟨Except.ok t, ⟨some t, some (flattenRegionsTree [] (some t) none)⟩, true⟩

/-- A sequence of non-interleaved `getRegionsTree()` invocations; returns
the final cache state and the total number of network requests issued. -/
def runGetRegionsTree (st : CacheState)
    (fetches : List (Except String (List RegionNode))) : CacheState × Nat :=
  match fetches with
  | [] => (st, 0)
  | f :: rest =>
    let r := getRegionsTree st f
    let (st2, nc) := runGetRegionsTree r.state rest
    (st2, (if r.networkCall then 1 else 0) + nc)

/-! ### Two concurrent `getRegionsTree()` callers

JavaScript is single-threaded with cooperative interleaving: a task runs
uninterrupted until its next `await`.  A first-time `getRegionsTree()`
caller performs the synchronous `!regionsTreeCache` check, issues the
fetch, and suspends at `await`; when the fetch resolves it assigns the
cache and returns.  Each caller is therefore a two-step task, and an
execution is a schedule interleaving the callers' steps. -/

/-- Where one `getRegionsTree()` caller stands. -/
inductive CallerPhase where
  /-- has not run yet (about to perform the cache check) -/
  | ready
  /-- suspended at `await wordstatRequest('/v1/getRegionsTree')` -/
  | waitingFetch
  /-- returned with the given forest -/
  | finished (result : List RegionNode)
deriving Repr

/-- Shared state plus the phases of two concurrent callers.  `fetches`
counts network requests to the tree endpoint. -/
structure ConcState where
  cache : Option (List RegionNode)
  fetches : Nat
  caller1 : CallerPhase
  caller2 : CallerPhase
deriving Repr

/-- One step of one caller: `ready` performs the synchronous cache check
(returning the cached tree, or issuing a fetch and suspending);
`waitingFetch` is resumed by its fetch resolving with `response`, assigns
`regionsTreeCache` and returns.  A finished caller is inert. -/
def phaseStep (response : List RegionNode) (cache : Option (List RegionNode))
    (fetches : Nat) (p : CallerPhase) :
    Option (List RegionNode) × Nat × CallerPhase :=
  match p with
  | .ready =>
    match cache with
    | some t => (some t, fetches, .finished t)
    | none => (none, fetches + 1, .waitingFetch)
  | .waitingFetch => (some response, fetches, .finished response)
  | .finished t => (cache, fetches, .finished t)

/-- Run a schedule: `true` steps caller 1, `false` steps caller 2.  Both
fetches hit the same endpoint and resolve with the same `response`. -/
def runSchedule (response : List RegionNode) (st : ConcState) (sched : List Bool) :
    ConcState :=
  match sched with
  | [] => st
  | b :: rest =>
    let st2 :=
      if b then
        let (c, f, p) := phaseStep response st.cache st.fetches st.caller1
        ConcState.mk c f p st.caller2
      else
        let (c, f, p) := phaseStep response st.cache st.fetches st.caller2
        ConcState.mk c f st.caller1 p
    runSchedule response st2 rest

/-- Both callers fresh, cache unpopulated, no fetches issued. -/
def initialConcState : ConcState :=
  ⟨none, 0, .ready, .ready⟩

/-! ### Rate limiter (`rateLimit`)

`rateLimit()` reads `Date.now()` as `now`, evicts expired timestamps from
the front of `requestTimestamps`, waits when the queue is full, and pushes
a second `Date.now()` reading, here called `ret` (the admission's recorded
timestamp, also the moment the caller resumes).  Real time enters only
through the two clock readings, so a call is embedded as the pure queue
transformation `rateLimitStep` applied to a pair `(now, ret)` constrained
by `stepValidB`:
* the wall clock is monotone, so `now ≤ ret`, and across back-to-back
  calls the next `now` is at least the previous `ret`;
* in the full-queue branch, `setTimeout(waitTime)` with
  `waitTime = q1[0] - windowStart > 0` resumes no earlier than
  `now + waitTime = q1[0] + 1000`; if `waitTime ≤ 0` there is no sleep but
  then `q1[0] + 1000 ≤ now ≤ ret` anyway — either way
  `q1[0] + 1000 ≤ ret`. -/

/-- The configured ceiling of the server (`const RATE_LIMIT = 10`). -/
def RATE_LIMIT : Nat := 10

/-- The `while (requestTimestamps.length > 0 && requestTimestamps[0] <
windowStart) requestTimestamps.shift();` loop. -/
def dropExpired (q : List Int) (windowStart : Int) : List Int :=
  q.dropWhile (fun t => decide (t < windowStart))

/-- The queue transformation of one `rateLimit()` call with ceiling `lim`:
evict expired heads; if the queue is still full, shift the head (after the
wait) and push the recorded timestamp `ret`; otherwise just push it. -/
def rateLimitStep (lim : Nat) (q : List Int) (now ret : Int) : List Int :=
  let q1 := dropExpired q (now - 1000)
  if lim ≤ q1.length then q1.tail ++ [ret] else q1 ++ [ret]

/-- Physical-time constraints of one call (see the section comment):
`now ≤ ret` always, and when the full-queue branch is taken the caller
cannot resume before the surviving head leaves the 1000 ms window. -/
def stepValidB (lim : Nat) (q : List Int) (now ret : Int) : Bool :=
  decide (now ≤ ret) &&
    (!decide (lim ≤ (dropExpired q (now - 1000)).length) ||
      ((dropExpired q (now - 1000)).take 1).all (fun t => decide (t + 1000 ≤ ret)))

/-- A back-to-back sequence of `rateLimit()` calls, each given as its pair
of clock readings `(now, ret)`: every step obeys `stepValidB` and no call
starts before the previous one returned (`tmin` is the earliest possible
start of the next call). -/
def traceValidB (lim : Nat) : List Int → Int → List (Int × Int) → Bool
  | _, _, [] => true
  | q, tmin, (now, ret) :: rest =>
    decide (tmin ≤ now) && stepValidB lim q now ret &&
      traceValidB lim (rateLimitStep lim q now ret) ret rest

/-! ### The `regions` tool handler (enrichment pipeline) -/

/-- One row of the `/v1/regions` response.  The numeric fields are
embedded as `Int`: the handler only copies them and compares them in sort
comparators `(a, b) => b.count - a.count` and
`(a, b) => b.affinityIndex - a.affinityIndex`. -/
structure RawRow where
  regionId : Int
  count : Int
  share : Int
  affinityIndex : Int
deriving Repr, DecidableEq

/-- A row after the `{...r, regionName}` spread. -/
structure EnrichedRow where
  regionId : Int
  count : Int
  share : Int
  affinityIndex : Int
  regionName : String
deriving Repr, DecidableEq

/-- `[...rows].sort((a, b) => b.count - a.count)`: `Array.prototype.sort`
is stable (ECMAScript 2019) and this comparator orders by `count`
descending, so the result is the unique stable descending-by-`count`
permutation, computed here by insertion sort. -/
def sortByCountDesc (rows : List RawRow) : List RawRow :=
  rows.insertionSort (fun a b => b.count ≤ a.count)

/-- `[...rows].sort((a, b) => b.affinityIndex - a.affinityIndex)`. -/
def sortByAffinityDesc (rows : List RawRow) : List RawRow :=
  rows.insertionSort (fun a b => b.affinityIndex ≤ a.affinityIndex)

/-- `regionsFlatCache.get(r.regionId)?.label || `Unknown (${r.regionId})``:
a missing entry (`undefined`) and an empty-string label are both falsy, so
both fall back to the placeholder embedding the raw id. -/
def resolveRegionName (flat : List (Int × FlatEntry)) (id : Int) : String :=
  match flat.lookup id with
  | some e => if e.label = "" then "Unknown (" ++ toString id ++ ")" else e.label
  | none => "Unknown (" ++ toString id ++ ")"

/-- The `.map((r) => ({...r, regionName: ...}))` body. -/
def enrichRow (flat : List (Int × FlatEntry)) (r : RawRow) : EnrichedRow :=
  ⟨r.regionId, r.count, r.share, r.affinityIndex, resolveRegionName flat r.regionId⟩

/-- The `allowedRegionIds` set of the handler: the union of
`getDescendantRegionIds(regionId)` over the requested filter ids, built
with JS `Set.add`. -/
def allowedRegionIds (cache : Option (List RegionNode)) (filterRegions : List Int) :
    List Int :=
  filterRegions.foldl
    (fun acc regionId => (getDescendantRegionIds cache regionId).foldl setAdd acc) []

/-- `filteredData`: `if (filterRegions?.length)` — an absent or empty
filter keeps every row, otherwise keep exactly the rows whose `regionId`
is in the allowed set. -/
def filteredRegionRows (cache : Option (List RegionNode)) (rows : List RawRow)
    (filterRegions : Option (List Int)) : List RawRow :=
  match filterRegions with
  | none => rows
  | some fr =>
    if fr.isEmpty then rows
    else rows.filter (fun r => decide (r.regionId ∈ allowedRegionIds cache fr))

/-- `enriched` (the tool's `regions` output): sort the filtered rows by
`count` descending, `slice(0, limit)`, then resolve names. -/
def rankedRegions (flat : List (Int × FlatEntry)) (rows : List RawRow)
    (limit : Nat) : List EnrichedRow :=
  ((sortByCountDesc rows).take limit).map (enrichRow flat)

/-- `topByAffinity`: sort the *filtered* rows by `affinityIndex`
descending, `slice(0, 5)`, then resolve names. -/
def topByAffinityRegions (flat : List (Int × FlatEntry)) (rows : List RawRow) :
    List EnrichedRow :=
  ((sortByAffinityDesc rows).take 5).map (enrichRow flat)

/-- The data pipeline of the `regions` tool handler: filter the raw rows,
then build the two output views over the same filtered set. -/
def regionsHandler (cache : Option (List RegionNode)) (flat : List (Int × FlatEntry))
    (rows : List RawRow) (filterRegions : Option (List Int)) (limit : Nat) :
    List EnrichedRow × List EnrichedRow :=
  let filteredData := filteredRegionRows cache rows filterRegions
  (rankedRegions flat filteredData limit, topByAffinityRegions flat filteredData)

/-! ### Specification-side depth projection

`projectNode n levels` keeps `levels` levels counting `n`'s own level:
with one level left the node is emitted with `children = null` whatever
its source children were; with more levels left the `children` field is
copied structurally (`null` stays `null`, an array is projected
element-wise with one level fewer). -/

mutual

/-- Project a single node to the given number of remaining levels. -/
def projectNode (n : RegionNode) (levels : Nat) : RegionNode :=
  match levels with
  | 0 => n
  | 1 => RegionNode.mk n.value n.label none
  | k + 2 => RegionNode.mk n.value n.label (projectChildren n.children (k + 1))
termination_by (levels, sizeOf n)

/-- Structural copy of a `children` field: `null` stays `null`. -/
def projectChildren (c : Option (List RegionNode)) (levels : Nat) :
    Option (List RegionNode) :=
  match c with
  | none => none
  | some cs => some (projectForestSpec cs levels)
termination_by (levels, sizeOf c)

/-- Element-wise projection of a forest. -/
def projectForestSpec (ns : List RegionNode) (levels : Nat) : List RegionNode :=
  match ns with
  | [] => []
  | n :: rest => projectNode n levels :: projectForestSpec rest levels
termination_by (levels, sizeOf ns)

end

/-- `projectToDepth(forest, maxDepth)` as worded by the specification:
truncate to `maxDepth` levels (roots at depth 1); `maxDepth < 1` yields
the empty (`null`) result. -/
def projectToDepth (forest : Option (List RegionNode)) (maxDepth : Int) :
    Option (List RegionNode) :=
  if maxDepth < 1 then none
  else
    match forest with
    | none => none
    | some ns => some (projectForestSpec ns maxDepth.toNat)

/-- The example taxonomy of the specification's testable properties:
`root(1) → [child(2) → [grandchild(3)], child(4)]`. -/
def specExampleTree : List RegionNode :=
  [RegionNode.mk 1 "root"
    (some [RegionNode.mk 2 "child2" (some [RegionNode.mk 3 "grandchild3" none]),
           RegionNode.mk 4 "child4" none])]

/-- The `child(2)` subtree of `specExampleTree`. -/
def specExampleChild2 : RegionNode :=
  RegionNode.mk 2 "child2" (some [RegionNode.mk 3 "grandchild3" none])

/-! ## Lemmas -/

theorem mem_setAdd (s : List Int) (y x : Int) :
    x ∈ setAdd s y ↔ x ∈ s ∨ x = y := by
  unfold setAdd
  by_cases h : y ∈ s
  · simp only [if_pos h]
    constructor
    · exact Or.inl
    · rintro (hx | rfl)
      · exact hx
      · exact h
  · simp [if_neg h]

mutual

theorem mem_collectDescendants (s : List Int) (n : RegionNode) (x : Int) :
    x ∈ collectDescendants s n ↔ x ∈ s ∨ x ∈ strictDescIds n := by
  cases n with
  | mk v l c =>
    cases c with
    | none => simp [collectDescendants, strictDescIds]
    | some cs =>
      rw [show collectDescendants s (RegionNode.mk v l (some cs)) = collectList s cs
        from by simp [collectDescendants]]
      rw [mem_collectList s cs x]
      simp [strictDescIds]
termination_by (sizeOf n, 1)

theorem mem_collectList (s : List Int) (cs : List RegionNode) (x : Int) :
    x ∈ collectList s cs ↔ x ∈ s ∨ x ∈ forestIds cs := by
  cases cs with
  | nil => simp [collectList, forestIds]
  | cons c rest =>
    rw [show collectList s (c :: rest)
        = collectList (collectDescendants (setAdd s c.value) c) rest
      from by simp [collectList]]
    rw [mem_collectList (collectDescendants (setAdd s c.value) c) rest x]
    rw [mem_collectDescendants (setAdd s c.value) c x]
    rw [mem_setAdd]
    simp only [forestIds, subtreeIds, List.mem_append, List.mem_cons]
    tauto
termination_by (sizeOf cs, 0)

end

/-! ## Claims -/

/-- C10: `getDescendantRegionIds` is total over every cache state — the
embedding is a total function, mirroring that the source path for a
`null` cache returns early instead of throwing — its result always
contains the seed `regionId`, and with an unfetched cache (`null`
`regionsTreeCache`) it is exactly the singleton `[regionId]`. -/
theorem descendant_expansion_total (cache : Option (List RegionNode)) (regionId : Int) :
    regionId ∈ getDescendantRegionIds cache regionId ∧
    getDescendantRegionIds none regionId = [regionId] := by
  refine ⟨?_, rfl⟩
  cases cache with
  | none => simp [getDescendantRegionIds]
  | some forest =>
    simp only [getDescendantRegionIds]
    cases h : findInForest forest regionId with
    | none => simp
    | some n =>
      exact (mem_collectDescendants [regionId] n regionId).mpr (Or.inl (by simp))

/-- C6: if the cache is unfetched and the tree fetch rejects, the error
propagates as the call's result, both cache variables are left untouched
(the state remains `Unfetched`), and a later invocation issues a fresh
network request and can succeed — the error is never memoized. -/
theorem fetch_failure_not_cached (st : CacheState) (e : String) (t : List RegionNode)
    (h : st.regionsTreeCache = none) :
    (getRegionsTree st (Except.error e)).result = Except.error e ∧
    (getRegionsTree st (Except.error e)).state = st ∧
    (getRegionsTree st (Except.error e)).networkCall = true ∧
    (getRegionsTree (getRegionsTree st (Except.error e)).state (Except.ok t)).networkCall
      = true ∧
    (getRegionsTree (getRegionsTree st (Except.error e)).state (Except.ok t)).result
      = Except.ok t := by
  simp [getRegionsTree, h]

/-- Witness for C6 at a concrete state, error and retry result. -/
theorem fetch_failure_not_cached_witness :
    (CacheState.mk none none).regionsTreeCache = none ∧
    (getRegionsTree (CacheState.mk none none) (Except.error "boom")).result
      = Except.error "boom" ∧
    (getRegionsTree (CacheState.mk none none) (Except.error "boom")).state
      = CacheState.mk none none :=
  ⟨rfl, (fetch_failure_not_cached (CacheState.mk none none) "boom" [] rfl).1,
    (fetch_failure_not_cached (CacheState.mk none none) "boom" [] rfl).2.1⟩

/-- A call sequence starting from a populated tree cache performs no
network call and never changes the state. -/
theorem runGetRegionsTree_cached (fetches : List (Except String (List RegionNode)))
    (st : CacheState) (t : List RegionNode) (h : st.regionsTreeCache = some t) :
    runGetRegionsTree st fetches = (st, 0) := by
  induction fetches with
  | nil => rfl
  | cons f rest ih => simp [runGetRegionsTree, getRegionsTree, h, ih]

/-- C7: a populated cache answers every later invocation with the cached
tree, unchanged state (so `Fetched` never transitions back) and no
network call; a successful first fetch populates both the tree and the
flat index; and any non-interleaved call sequence whose first fetch
succeeds issues exactly one network request in total, whatever follows. -/
theorem at_most_once_after_success :
    (∀ (st : CacheState) (t : List RegionNode) (fr : Except String (List RegionNode)),
       st.regionsTreeCache = some t →
       (getRegionsTree st fr).result = Except.ok t ∧
       (getRegionsTree st fr).state = st ∧
       (getRegionsTree st fr).networkCall = false) ∧
    (∀ (st : CacheState) (t : List RegionNode), st.regionsTreeCache = none →
       (getRegionsTree st (Except.ok t)).state
         = CacheState.mk (some t) (some (flattenRegionsTree [] (some t) none))) ∧
    (∀ (t : List RegionNode) (rest : List (Except String (List RegionNode))),
       (runGetRegionsTree (CacheState.mk none none) (Except.ok t :: rest)).2 = 1) := by
  refine ⟨?_, ?_, ?_⟩
  · intro st t fr h
    simp [getRegionsTree, h]
  · intro st t h
    simp [getRegionsTree, h]
  · intro t rest
    simp [runGetRegionsTree, getRegionsTree,
      runGetRegionsTree_cached rest
        (CacheState.mk (some t) (some (flattenRegionsTree [] (some t) none))) t rfl]

/-- Witness for C7 at concrete states and call sequences. -/
theorem at_most_once_after_success_witness :
    (CacheState.mk (some []) none).regionsTreeCache = some [] ∧
    (getRegionsTree (CacheState.mk (some []) none) (Except.error "x")).networkCall
      = false ∧
    (CacheState.mk none none).regionsTreeCache = none ∧
    (getRegionsTree (CacheState.mk none none) (Except.ok [])).state
      = CacheState.mk (some []) (some (flattenRegionsTree [] (some []) none)) ∧
    (runGetRegionsTree (CacheState.mk none none) [Except.ok [], Except.ok []]).2 = 1 :=
  ⟨rfl, (at_most_once_after_success.1 (CacheState.mk (some []) none) [] (Except.error "x")
      rfl).2.2,
    rfl, at_most_once_after_success.2.1 (CacheState.mk none none) [] rfl,
    at_most_once_after_success.2.2 [] [Except.ok []]⟩

/-- C1 counterexample: both callers start first-time (`ready`) with an
unpopulated cache; caller 2 performs its cache check while caller 1's
fetch is still in flight (caller 1 is `waitingFetch`), and issues its own
fetch: after both complete, two network calls to the tree endpoint have
been made, not one. -/
theorem single_flight_counterexample :
    (runSchedule [] initialConcState [true, false, true, false]).fetches = 2 ∧
    (runSchedule [] initialConcState [true, false, true, false]).caller1
      = CallerPhase.finished [] ∧
    (runSchedule [] initialConcState [true, false, true, false]).caller2
      = CallerPhase.finished [] :=
  ⟨rfl, rfl, rfl⟩

/-- C1 amended: `getRegionsTree()` caches the resolved value, not the
in-flight promise, so a second caller that performs its cache check while
the first fetch is still in flight issues a second network call (two
concurrent first-time calls → two fetches); only a caller that enters
after a fetch has completed observes the populated cache and issues no
network call (sequential second call → one fetch in total). -/
theorem single_flight_amended (response : List RegionNode) :
    (runSchedule response initialConcState [true, false, true, false]).fetches = 2 ∧
    (runSchedule response initialConcState [true, false, true, false]).caller1
      = CallerPhase.finished response ∧
    (runSchedule response initialConcState [true, false, true, false]).caller2
      = CallerPhase.finished response ∧
    (runSchedule response initialConcState [true, true, false]).fetches = 1 ∧
    (runSchedule response initialConcState [true, true, false]).caller1
      = CallerPhase.finished response ∧
    (runSchedule response initialConcState [true, true, false]).caller2
      = CallerPhase.finished response :=
  ⟨rfl, rfl, rfl, rfl, rfl, rfl⟩

/-- C3 counterexample: at the truncation boundary the trim emits
`children = null` for every node, so the node `1` that had a child
(truncated) and the node `1` that is a genuine childless leaf (empty
`children` array) produce identical output at `maxDepth = 1`, although
their source `children` differ — a truncated node is not distinguishable
from a genuine leaf with no children. -/
theorem depth_projection_counterexample :
    trimTreeToDepth
        (some [RegionNode.mk 1 "a" (some [RegionNode.mk 2 "b" none])]) 1 1
      = trimTreeToDepth (some [RegionNode.mk 1 "a" (some [])]) 1 1 ∧
    (RegionNode.mk 1 "a" (some [RegionNode.mk 2 "b" none])).children
      ≠ (RegionNode.mk 1 "a" (some [])).children :=
  ⟨by simp [trimTreeToDepth, trimForest, RegionNode.value, RegionNode.label],
    by simp [RegionNode.children]⟩

/-- Above the boundary the trim copies the forest level by level; with
`k = (d - c).toNat` levels of slack it equals the specification-side
projection with `k + 1` remaining levels. -/
theorem trimForest_eq_projectForest (k : Nat) :
    ∀ (ns : List RegionNode) (c d : Int), c ≤ d → (d - c).toNat = k →
      trimForest ns d c = projectForestSpec ns (k + 1) := by
  induction k with
  | zero =>
    intro ns c d hcd hk
    induction ns with
    | nil => simp [trimForest, projectForestSpec]
    | cons n rest ih =>
      have hcd2 : ¬ c < d := by omega
      simp [trimForest, projectForestSpec, hcd2, ih, projectNode]
  | succ j ihk =>
    intro ns c d hcd hk
    induction ns with
    | nil => simp [trimForest, projectForestSpec]
    | cons n rest ih =>
      have hlt : c < d := by omega
      simp only [trimForest, projectForestSpec, if_pos hlt]
      refine congrArg₂ List.cons ?_ ih
      simp only [projectNode]
      cases hc : n.children with
      | none => simp [trimTreeToDepth, projectChildren]
      | some cs =>
        have hnd : ¬ d < c + 1 := by omega
        simp only [trimTreeToDepth, projectChildren, if_neg hnd]
        rw [ihk cs (c + 1) d (by omega) (by omega)]

/-- C3 amended: the trim equals the specification-side projection in
which every node at the truncation boundary is emitted with
`children = null` whether or not it had children (so boundary truncation
is not distinguishable from a boundary leaf), strictly-above-boundary
`children` are copied structurally, deeper nodes are omitted, and
`maxDepth < 1` yields the empty (`null`) result. -/
theorem depth_projection_amended (forest : Option (List RegionNode)) (maxDepth : Int) :
    trimTreeToDepth forest maxDepth 1 = projectToDepth forest maxDepth ∧
    (maxDepth < 1 → trimTreeToDepth forest maxDepth 1 = none) ∧
    (∀ n : RegionNode, projectNode n 1 = RegionNode.mk n.value n.label none) := by
  refine ⟨?_, ?_, fun n => by simp [projectNode]⟩
  · cases forest with
    | none => simp [trimTreeToDepth, projectToDepth]
    | some ns =>
      by_cases h : maxDepth < 1
      · simp [trimTreeToDepth, projectToDepth, h]
      · have h2 : ¬ maxDepth < 1 := h
        simp only [trimTreeToDepth, projectToDepth, if_neg h2]
        rw [trimForest_eq_projectForest (maxDepth - 1).toNat ns 1 maxDepth (by omega)
          (by omega)]
        have : (maxDepth - 1).toNat + 1 = maxDepth.toNat := by omega
        rw [this]
  · intro h
    cases forest with
    | none => simp [trimTreeToDepth]
    | some ns => simp [trimTreeToDepth, h]

mutual

theorem findRegionInTree_value (nodes : Option (List RegionNode)) (regionId : Int)
    (n : RegionNode) (h : findRegionInTree nodes regionId = some n) :
    n.value = regionId := by
  cases nodes with
  | none => simp [findRegionInTree] at h
  | some ns =>
    exact findInForest_value ns regionId n (by simpa [findRegionInTree] using h)
termination_by (sizeOf nodes, 1)

theorem findInForest_value (ns : List RegionNode) (regionId : Int)
    (n : RegionNode) (h : findInForest ns regionId = some n) :
    n.value = regionId := by
  cases ns with
  | nil => simp [findInForest] at h
  | cons hd rest =>
    cases hd with
    | mk v l c =>
      by_cases hv : v = regionId
      · rw [show findInForest (RegionNode.mk v l c :: rest) regionId
            = some (RegionNode.mk v l c) from by simp [findInForest, hv]] at h
        injection h with h
        subst h
        simpa [RegionNode.value] using hv
      · rw [show findInForest (RegionNode.mk v l c :: rest) regionId
            = match findRegionInTree c regionId with
              | some found => some found
              | none => findInForest rest regionId from by simp [findInForest, hv]] at h
        cases hf : findRegionInTree c regionId with
        | some found =>
          rw [hf] at h
          injection h with h
          subst h
          exact findRegionInTree_value c regionId _ hf
        | none =>
          rw [hf] at h
          exact findInForest_value rest regionId n h
termination_by (sizeOf ns, 0)

end

/-- C4: if the depth-first lookup finds the node matching `id`, the
descendant expansion is exactly the id set of that node's subtree — `id`
itself (the found node's `value` equals `id`) together with every id
reachable via `children`, and nothing else; if no node matches,
the expansion is exactly the seed singleton `[id]`, not an error. -/
theorem descendant_closure (forest : List RegionNode) (id : Int) :
    (∀ n, findInForest forest id = some n →
       ∀ x, x ∈ getDescendantRegionIds (some forest) id ↔ x ∈ subtreeIds n) ∧
    (findInForest forest id = none →
       getDescendantRegionIds (some forest) id = [id]) := by
  constructor
  · intro n hfind x
    have hv : n.value = id := findInForest_value forest id n hfind
    rw [show getDescendantRegionIds (some forest) id = collectDescendants [id] n
      from by rw [getDescendantRegionIds, hfind]]
    rw [mem_collectDescendants]
    simp [subtreeIds, hv]
  · intro hfind
    rw [getDescendantRegionIds, hfind]

/-- Witness for C4 on the example taxonomy: looking up `2` finds the
`child(2)` subtree and the expansion of `2` agrees with that subtree's id
set at the probe `3`; looking up `99` finds nothing and the expansion is
`[99]`. -/
theorem descendant_closure_witness :
    findInForest specExampleTree 2 = some specExampleChild2 ∧
    ((3 : Int) ∈ getDescendantRegionIds (some specExampleTree) 2 ↔
      (3 : Int) ∈ subtreeIds specExampleChild2) ∧
    findInForest specExampleTree 99 = none ∧
    getDescendantRegionIds (some specExampleTree) 99 = [99] :=
  have h2 : findInForest specExampleTree 2 = some specExampleChild2 := by
    simp [specExampleTree, specExampleChild2, findInForest, findRegionInTree]
  have h99 : findInForest specExampleTree 99 = none := by
    simp [specExampleTree, findInForest, findRegionInTree]
  ⟨h2, (descendant_closure specExampleTree 2).1 specExampleChild2 h2 3,
    h99, (descendant_closure specExampleTree 99).2 h99⟩

/-- Witness for C3 amended at `maxDepth = 0` (empty result) and
`maxDepth = 3` on the example taxonomy. -/
theorem depth_projection_amended_witness :
    trimTreeToDepth (some specExampleTree) 0 1 = projectToDepth (some specExampleTree) 0 ∧
    ((0 : Int) < 1) ∧
    trimTreeToDepth (some specExampleTree) 0 1 = none ∧
    trimTreeToDepth (some specExampleTree) 3 1 = projectToDepth (some specExampleTree) 3 :=
  ⟨(depth_projection_amended (some specExampleTree) 0).1, by norm_num,
    (depth_projection_amended (some specExampleTree) 0).2.1 (by norm_num),
    (depth_projection_amended (some specExampleTree) 3).1⟩

/-- Inserting an element whose key equals `c` leaves the filter-by-`c`
view of the list intact except for the new element at its front: every
element skipped over has a strictly larger key, hence key `≠ c`. -/
theorem orderedInsert_filter_of_eq {α : Type} (key : α → Int) (c : Int) (x : α)
    (hx : key x = c) :
    ∀ l : List α,
      (l.orderedInsert (fun a b => key b ≤ key a) x).filter (fun y => decide (key y = c))
        = x :: l.filter (fun y => decide (key y = c))
  | [] => by simp [hx]
  | y :: ys => by
    by_cases h : key y ≤ key x
    · simp only [List.orderedInsert]
      rw [if_pos h]
      simp [List.filter_cons, hx]
    · have hyc : ¬ (key y = c) := by omega
      simp only [List.orderedInsert]
      rw [if_neg h]
      simp [List.filter_cons, hyc, orderedInsert_filter_of_eq key c x hx ys]

/-- Inserting an element whose key differs from `c` does not change the
filter-by-`c` view at all. -/
theorem orderedInsert_filter_of_ne {α : Type} (key : α → Int) (c : Int) (x : α)
    (hx : ¬ (key x = c)) :
    ∀ l : List α,
      (l.orderedInsert (fun a b => key b ≤ key a) x).filter (fun y => decide (key y = c))
        = l.filter (fun y => decide (key y = c))
  | [] => by simp [hx]
  | y :: ys => by
    by_cases h : key y ≤ key x
    · simp only [List.orderedInsert, if_pos h]
      simp [hx]
    · simp only [List.orderedInsert, if_neg h, List.filter_cons]
      rw [orderedInsert_filter_of_ne key c x hx ys]

/-- Stability of the embedded sort: rows with key `c` appear in the
sorted output exactly as they appear in the input. -/
theorem insertionSort_filter_key {α : Type} (key : α → Int) (c : Int) :
    ∀ l : List α,
      (l.insertionSort (fun a b => key b ≤ key a)).filter (fun y => decide (key y = c))
        = l.filter (fun y => decide (key y = c))
  | [] => rfl
  | x :: xs => by
    simp only [List.insertionSort]
    by_cases hx : key x = c
    · rw [orderedInsert_filter_of_eq key c x hx]
      rw [insertionSort_filter_key key c xs]
      simp [List.filter_cons, hx]
    · rw [orderedInsert_filter_of_ne key c x hx]
      rw [insertionSort_filter_key key c xs]
      simp [List.filter_cons, hx]

/-- C5: the ranked view is the filtered row sequence stably sorted
descending by `count` and truncated to `limit`: the sort is a permutation
of the filtered rows, sorted descending by `count`, stable (rows of any
fixed count `c` appear exactly in their original relative order), and the
output is the first `limit` of its rows (name-resolved). -/
theorem enrichment_ranking (flat : List (Int × FlatEntry)) (rows : List RawRow)
    (limit : Nat) :
    List.Perm (sortByCountDesc rows) rows ∧
    List.Sorted (fun a b : RawRow => b.count ≤ a.count) (sortByCountDesc rows) ∧
    (∀ c : Int, (sortByCountDesc rows).filter (fun r => decide (r.count = c))
        = rows.filter (fun r => decide (r.count = c))) ∧
    rankedRegions flat rows limit
      = ((sortByCountDesc rows).map (enrichRow flat)).take limit := by
  refine ⟨List.perm_insertionSort _ rows, ?_, ?_, ?_⟩
  · haveI : IsTotal RawRow (fun a b => b.count ≤ a.count) := ⟨fun _ _ => le_total _ _⟩
    haveI : IsTrans RawRow (fun a b => b.count ≤ a.count) :=
      ⟨fun _ _ _ hab hbc => le_trans hbc hab⟩
    exact List.sorted_insertionSort _ rows
  · intro c
    exact insertionSort_filter_key (fun r : RawRow => r.count) c rows
  · simp [rankedRegions, List.map_take]

/-- C8: `topByAffinity` is computed from the filtered (not
limit-truncated) row set — it is the filtered set sorted descending by
`affinityIndex` and truncated to the constant 5 — and it is independent
of `ranked`: concretely, with `limit = 1` the row with `regionId = 2`
(low count, high affinity) is excluded from `ranked` yet appears in
`topByAffinity`. -/
theorem topByAffinity_independent :
    (∀ (cache : Option (List RegionNode)) (flat : List (Int × FlatEntry))
       (rows : List RawRow) (fr : Option (List Int)) (limit : Nat),
       (regionsHandler cache flat rows fr limit).2
         = topByAffinityRegions flat (filteredRegionRows cache rows fr)) ∧
    (∀ (flat : List (Int × FlatEntry)) (rows : List RawRow),
       topByAffinityRegions flat rows
         = ((sortByAffinityDesc rows).map (enrichRow flat)).take 5) ∧
    (∀ rows : List RawRow,
       List.Sorted (fun a b : RawRow => b.affinityIndex ≤ a.affinityIndex)
         (sortByAffinityDesc rows)) ∧
    (∀ rows : List RawRow, List.Perm (sortByAffinityDesc rows) rows) ∧
    ((2 : Int) ∈ (regionsHandler none []
        [⟨1, 100, 0, 0⟩, ⟨2, 1, 0, 50⟩] none 1).2.map EnrichedRow.regionId ∧
      (2 : Int) ∉ (regionsHandler none []
        [⟨1, 100, 0, 0⟩, ⟨2, 1, 0, 50⟩] none 1).1.map EnrichedRow.regionId) := by
  refine ⟨fun _ _ _ _ _ => rfl, fun flat rows => by simp [topByAffinityRegions, List.map_take],
    ?_, fun rows => List.perm_insertionSort _ rows, by decide, by decide⟩
  intro rows
  haveI : IsTotal RawRow (fun a b => b.affinityIndex ≤ a.affinityIndex) :=
    ⟨fun _ _ => le_total _ _⟩
  haveI : IsTrans RawRow (fun a b => b.affinityIndex ≤ a.affinityIndex) :=
    ⟨fun _ _ _ hab hbc => le_trans hbc hab⟩
  exact List.sorted_insertionSort _ rows

/-- C9: a filtered row whose `regionId` has no entry in the flat index is
enriched — with all numeric fields preserved — to carry the placeholder
name embedding the raw id, and appears in both pre-truncation views; the
two outputs are exactly the `limit`- and 5-prefixes of those views, so an
unresolved id is only ever dropped by truncation, never by enrichment. -/
theorem unresolvable_id_degrades (flat : List (Int × FlatEntry)) (rows : List RawRow)
    (limit : Nat) (r : RawRow) (hmem : r ∈ rows)
    (habs : flat.lookup r.regionId = none) :
    (enrichRow flat r).regionId = r.regionId ∧
    (enrichRow flat r).count = r.count ∧
    (enrichRow flat r).affinityIndex = r.affinityIndex ∧
    (enrichRow flat r).regionName = "Unknown (" ++ toString r.regionId ++ ")" ∧
    enrichRow flat r ∈ (sortByCountDesc rows).map (enrichRow flat) ∧
    enrichRow flat r ∈ (sortByAffinityDesc rows).map (enrichRow flat) ∧
    rankedRegions flat rows limit
      = ((sortByCountDesc rows).map (enrichRow flat)).take limit ∧
    topByAffinityRegions flat rows
      = ((sortByAffinityDesc rows).map (enrichRow flat)).take 5 := by
  refine ⟨rfl, rfl, rfl, ?_, ?_, ?_, ?_, ?_⟩
  · simp [enrichRow, resolveRegionName, habs]
  · exact List.mem_map_of_mem _ ((List.mem_insertionSort _).mpr hmem)
  · exact List.mem_map_of_mem _ ((List.mem_insertionSort _).mpr hmem)
  · simp [rankedRegions, List.map_take]
  · simp [topByAffinityRegions, List.map_take]

/-- Witness for C9: the row with `regionId = 999` and an empty flat index
gets the literal placeholder label and stays in the sorted view. -/
theorem unresolvable_id_degrades_witness :
    ((⟨999, 1, 2, 3⟩ : RawRow) ∈ ([⟨999, 1, 2, 3⟩] : List RawRow)) ∧
    (([] : List (Int × FlatEntry)).lookup (999 : Int) = none) ∧
    (enrichRow [] ⟨999, 1, 2, 3⟩).regionName
      = "Unknown (" ++ toString (999 : Int) ++ ")" ∧
    enrichRow [] ⟨999, 1, 2, 3⟩ ∈ (sortByCountDesc [⟨999, 1, 2, 3⟩]).map (enrichRow []) :=
  ⟨by simp, rfl,
    (unresolvable_id_degrades [] [⟨999, 1, 2, 3⟩] 20 ⟨999, 1, 2, 3⟩ (by simp)
      rfl).2.2.2.1,
    (unresolvable_id_degrades [] [⟨999, 1, 2, 3⟩] 20 ⟨999, 1, 2, 3⟩ (by simp)
      rfl).2.2.2.2.1⟩

/-- Unpacking one step of a valid trace. -/
theorem traceValidB_cons (lim : Nat) (q : List Int) (tmin now ret : Int)
    (rest : List (Int × Int))
    (h : traceValidB lim q tmin ((now, ret) :: rest) = true) :
    tmin ≤ now ∧ stepValidB lim q now ret = true ∧
      traceValidB lim (rateLimitStep lim q now ret) ret rest = true := by
  simpa [traceValidB, Bool.and_eq_true, decide_eq_true_eq, and_assoc] using h

/-- Unpacking the physical-time constraints of one step. -/
theorem stepValidB_spec (lim : Nat) (q : List Int) (now ret : Int)
    (h : stepValidB lim q now ret = true) :
    now ≤ ret ∧ (lim ≤ (dropExpired q (now - 1000)).length →
      ∀ t ∈ (dropExpired q (now - 1000)).take 1, t + 1000 ≤ ret) := by
  simp only [stepValidB, Bool.and_eq_true, Bool.or_eq_true, Bool.not_eq_true',
    decide_eq_true_eq, List.all_eq_true, decide_eq_false_iff_not] at h
  obtain ⟨h1, h2⟩ := h
  refine ⟨h1, fun hlen t ht => ?_⟩
  cases h2 with
  | inl h2 => exact absurd hlen h2
  | inr h2 => exact h2 t ht

/-- Invariant carried through a back-to-back admission trace: as long as
the queue still is exactly the previously recorded timestamps headed by
the first recorded timestamp `r1` (with the length bookkeeping
`rest.length + q.length = lim + 1`), or the clock has already passed
`r1 + 1000`, the last admission of the trace is recorded no earlier than
`r1 + 1000`. -/
theorem rate_bound_aux (lim : Nat) :
    ∀ (rest : List (Int × Int)) (q : List Int) (tmin r1 : Int),
      traceValidB lim q tmin rest = true →
      ((rest.length + q.length = lim + 1 ∧ q.head? = some r1) ∨ r1 + 1000 ≤ tmin) →
      ∀ pl ∈ rest.getLast?, r1 + 1000 ≤ pl.2 := by
  intro rest
  induction rest with
  | nil =>
    intro q tmin r1 _ _ pl hpl
    simp at hpl
  | cons hd rest ih =>
    obtain ⟨now, ret⟩ := hd
    intro q tmin r1 hvalid hinv pl hpl
    obtain ⟨h1, h2, h3⟩ := traceValidB_cons lim q tmin now ret rest hvalid
    obtain ⟨hmono, hwait⟩ := stepValidB_spec lim q now ret h2
    cases rest with
    | nil =>
      have hpl2 : (now, ret) = pl := by simpa [List.getLast?] using hpl
      subst hpl2
      show r1 + 1000 ≤ ret
      rcases hinv with ⟨hsum, hhead⟩ | htmin
      · obtain ⟨qtail, rfl⟩ : ∃ qtail, q = r1 :: qtail := by
          cases q with
          | nil => simp at hhead
          | cons a l =>
            refine ⟨l, ?_⟩
            have ha : a = r1 := by simpa using hhead
            rw [ha]
        simp only [List.length_cons, List.length_nil] at hsum
        by_cases hdrop : r1 < now - 1000
        · omega
        · have hq1 : dropExpired (r1 :: qtail) (now - 1000) = r1 :: qtail := by
            simp [dropExpired, List.dropWhile_cons, hdrop]
          have hlen : lim ≤ (dropExpired (r1 :: qtail) (now - 1000)).length := by
            rw [hq1]
            simp only [List.length_cons]
            omega
          exact hwait hlen r1 (by rw [hq1]; simp)
      · omega
    | cons hd2 rest2 =>
      have hpl2 : pl ∈ (hd2 :: rest2).getLast? := by
        rwa [List.getLast?_cons_cons] at hpl
      refine ih (rateLimitStep lim q now ret) ret r1 h3 ?_ pl hpl2
      rcases hinv with ⟨hsum, hhead⟩ | htmin
      · obtain ⟨qtail, rfl⟩ : ∃ qtail, q = r1 :: qtail := by
          cases q with
          | nil => simp at hhead
          | cons a l =>
            refine ⟨l, ?_⟩
            have ha : a = r1 := by simpa using hhead
            rw [ha]
        simp only [List.length_cons] at hsum
        by_cases hdrop : r1 < now - 1000
        · right
          omega
        · left
          have hq1 : dropExpired (r1 :: qtail) (now - 1000) = r1 :: qtail := by
            simp [dropExpired, List.dropWhile_cons, hdrop]
          have hnotfull : ¬ lim ≤ qtail.length + 1 := by omega
          have hstep : rateLimitStep lim (r1 :: qtail) now ret
              = r1 :: (qtail ++ [ret]) := by
            simp [rateLimitStep, hq1, hnotfull]
          rw [hstep]
          refine ⟨?_, rfl⟩
          simp only [List.length_cons, List.length_append, List.length_nil]
          omega
      · right
        omega

/-- C2: for any ceiling `lim ≥ 1` and any back-to-back valid trace of
`lim + 1` admissions starting from an empty timestamp queue, the
timestamp recorded for the last admission is at least 1000 ms after the
timestamp recorded for the first. -/
theorem rate_limiter_bound (lim : Nat) (t0 : Int) (calls : List (Int × Int))
    (hlim : 1 ≤ lim) (hlen : calls.length = lim + 1)
    (hvalid : traceValidB lim [] t0 calls = true) :
    ∀ pf ∈ calls.head?, ∀ pl ∈ calls.getLast?, pf.2 + 1000 ≤ pl.2 := by
  cases calls with
  | nil =>
    intro pf hpf
    simp at hpf
  | cons hd rest =>
    obtain ⟨now1, ret1⟩ := hd
    intro pf hpf pl hpl
    have hpf2 : (now1, ret1) = pf := by simpa using hpf
    subst hpf2
    show ret1 + 1000 ≤ pl.2
    obtain ⟨h1, h2, h3⟩ := traceValidB_cons lim [] t0 now1 ret1 rest hvalid
    have hlim0 : lim ≠ 0 := by omega
    have hstep : rateLimitStep lim [] now1 ret1 = [ret1] := by
      simp [rateLimitStep, dropExpired, hlim0]
    rw [hstep] at h3
    cases rest with
    | nil =>
      exfalso
      simp only [List.length_cons, List.length_nil] at hlen
      omega
    | cons hd2 rest2 =>
      have hlast : pl ∈ (hd2 :: rest2).getLast? := by
        rwa [List.getLast?_cons_cons] at hpl
      refine rate_bound_aux lim (hd2 :: rest2) [ret1] ret1 ret1 h3 (Or.inl ⟨?_, rfl⟩)
        pl hlast
      simp only [List.length_cons, List.length_nil] at hlen ⊢
      omega

/-- Witness for C2 with ceiling 1 and two admissions: the first records
timestamp 0, so the second cannot be recorded before 1000. -/
theorem rate_limiter_bound_witness :
    traceValidB 1 [] 0 [(0, 0), (0, 1000)] = true ∧ ((0 : Int) + 1000 ≤ 1000) :=
  ⟨by decide,
    rate_limiter_bound 1 0 [(0, 0), (0, 1000)] (by decide) rfl (by decide)
      (0, 0) rfl (0, 1000) rfl⟩

end YandexWordstat
